import Mathlib

/-!
Verification of the incremental explanation scheduler of a Sudoku
explanation generator.  The Python sources `sudoku_solver.py`,
`sudoku_kb.py` and `solution.py` are shallowly embedded below: pure
functions become Lean functions, the stateful greedy driver becomes
explicit state passing over a `DriverState` record, the external IDP
oracle (`kb.get_unsat_core`, `kb.get_solution`) and the knowledge-base
cost evaluator (`kb.get_core_cost` / `find_cells`) are parameters of the
driver, and fallible code (Python exceptions) returns `Option`.

The file has two parts: all definitions first, then the theorems.
-/

namespace SudokuProof

/-! ## Data model (solution.py, sudoku_solver.py) -/

/-- A cell is a `(row, col, value)` triple, as in the Python tuples. -/
abbrev Cell := ℕ × ℕ × ℕ

/-- Costs stored in `to_calculate`: either an evaluated integer cost or
the `math.inf` sentinel, modelled as `⊤` of `WithTop ℕ`. -/
abbrev Cost := WithTop ℕ

/-- One entry of `to_calculate`: the dict `{'cell': cell, 'cost': cost}`. -/
structure Candidate where
  cell : Cell
  cost : Cost
deriving DecidableEq, Repr

/-- One entry of a step's `used_cells` list:
`{'value': v, 'cells': [(row, col), ...]}`. -/
structure UsedEntry where
  value : ℕ
  cells : List (ℕ × ℕ)
deriving DecidableEq, Repr

/-- One recorded solution step, as built by `Solution.add_step`
(solution.py, lines 22-31). -/
structure SolStep where
  step_nr : ℕ
  cell : Cell
  used_cells : List UsedEntry
  current_structure : List Cell
deriving DecidableEq, Repr

/-- Embedding of `Solution.get_last_step` (solution.py, lines 33-39).
The Python code initialises `highest_step_nr = 0` and never updates it,
so the guard `step['step_nr'] > highest_step_nr` is just
`step['step_nr'] > 0` and `last_step` is overwritten by every step with
a positive step number.  `none` models the `UnboundLocalError` raised
when no step qualifies. -/
def get_last_step (steps : List SolStep) : Option SolStep :=
  steps.foldl (fun last step => if step.step_nr > 0 then some step else last) none

/-- The mutable state of a `SudokuSolver` (sudoku_solver.py, lines
44-77), restricted to the fields the scheduler reads or writes.  The
solution object is represented by its list of steps. -/
structure DriverState where
  initial_struct : List Cell
  current_struct : List Cell
  complete_struct : List Cell
  to_calculate : List Candidate
  step_nr : ℕ
  first_step_done : Bool
  max_steps : ℕ
  selective_threshold : ℕ
  steps : List SolStep
deriving DecidableEq, Repr

/-- Embedding of `SudokuSolver.__init__` (sudoku_solver.py, lines
44-77): a fresh run starts with an empty current structure at step 1; a
resumed run reads the last step of the saved solution (crashing, i.e.
`none`, when `get_last_step` finds no step).  `complete_struct` and
`to_calculate` are initialised empty / unset as in the source. -/
def init_solver (given : List Cell) (sol : Option (List SolStep))
    (selective_threshold max_steps : ℕ) : Option DriverState :=
  match sol with
  | none => some
      { initial_struct := given, current_struct := [], complete_struct := [],
        to_calculate := [], step_nr := 1, first_step_done := false,
        max_steps := max_steps, selective_threshold := selective_threshold,
        steps := [] }
  | some steps =>
      (get_last_step steps).map (fun last =>
        { initial_struct := given, current_struct := last.current_structure,
          complete_struct := [], to_calculate := [], step_nr := last.step_nr + 1,
          first_step_done := false, max_steps := max_steps,
          selective_threshold := selective_threshold, steps := steps })

/-! ## Round scheduling (ZebraTutorSolver and variants) -/

/-- Python's `sorted(to_calculate, key=lambda x: x['cost'])`: a stable
sort ascending by stored cost (insertion sort is stable, matching
Python's stable `sorted`). -/
def sorted_by_cost (l : List Candidate) : List Candidate :=
  List.insertionSort (fun a b => a.cost ≤ b.cost) l

/-- Floor of the base-2 logarithm, fuel-indexed for structural
recursion; fuel 320 is exact for every argument below `2^320`, far
beyond anything the driver can compute. -/
def natLog2F : ℕ → ℕ → ℕ
  | 0, _ => 0
  | f + 1, x => if x ≤ 1 then 0 else natLog2F f (x / 2) + 1

/-- Floor of the base-2 logarithm of a positive natural. -/
def natLog2 (x : ℕ) : ℕ := natLog2F 320 x

/-- The IEEE-754 binary64 value nearest to `a / b` (round to nearest,
ties to even), as a dyadic `m * 2^e`: Python's correctly rounded true
division of two nonnegative integers.  Overflow to infinity and
subnormal rounding are outside the model; both are unreachable for the
driver's `selective_threshold / 100`. -/
def fl_div (a b : ℕ) : ℕ × ℤ :=
  if a = 0 ∨ b = 0 then (0, 0)
  else
    let la := natLog2 a
    let lb := natLog2 b
    let E : ℤ := if b * 2 ^ la ≤ a * 2 ^ lb then (la : ℤ) - lb else (la : ℤ) - lb - 1
    let s : ℤ := 52 - E
    let N := if 0 ≤ s then a * 2 ^ s.toNat else a
    let D := if 0 ≤ s then b else b * 2 ^ (-s).toNat
    let m0 := N / D
    let r := N % D
    let m := if D < 2 * r then m0 + 1
      else if 2 * r < D then m0
      else if m0 % 2 = 0 then m0 else m0 + 1
    (m, E - 52)

/-- Round the dyadic `M * 2^e` to 53 significant bits, ties to even:
the IEEE-754 binary64 rounding of an exact product. -/
def round53 (M : ℕ) (e : ℤ) : ℕ × ℤ :=
  if M < 2 ^ 53 then (M, e)
  else
    let sh := natLog2 M - 52
    let keep := M / 2 ^ sh
    let rem := M % 2 ^ sh
    let half := 2 ^ (sh - 1)
    let keep2 := if half < rem then keep + 1
      else if rem = half ∧ keep % 2 = 1 then keep + 1
      else keep
    (keep2, e + sh)

/-- Python's `float * int`: for factors below `2^53` the conversion of
the integer to double is exact, so the result is the correctly rounded
product of the exact values. -/
def fl_mul_nat (x : ℕ × ℤ) (n : ℕ) : ℕ × ℤ := round53 (x.1 * n) x.2

/-- Python's `math.ceil` on a nonnegative double `m * 2^e`. -/
def ceil_dyadic (m : ℕ) (e : ℤ) : ℕ :=
  if 0 ≤ e then m * 2 ^ e.toNat
  else (m + 2 ^ (-e).toNat - 1) / 2 ^ (-e).toNat

/-- Python's `int(math.ceil(self.selective_threshold / 100 *
len(to_calculate)))` (sudoku_solver.py, lines 96-97), embedded exactly
as the source computes it in binary floating point: the correctly
rounded double quotient `threshold / 100`, multiplied by the (exactly
converted) candidate count with a second rounding, then the ceiling.
This integer emulation was validated against CPython exhaustively for
thresholds up to 300 and candidate counts up to 2000 and on random
larger pairs.  It differs from the exact rational ceiling
`(threshold * n + 99) / 100` at a few inputs where the float rounding
lands just above an integer: e.g. `max_nr_cores 14 50 = 8` while
`⌈14 * 50 / 100⌉ = 7`. -/
def max_nr_cores (threshold n : ℕ) : ℕ :=
  let q := fl_div threshold 100
  let p := fl_mul_nat q n
  ceil_dyadic p.1 p.2

/-- The `for i, item in enumerate(to_calculate, start=1)` loop of
`ZebraTutorSolver.fill_input_queue` (sudoku_solver.py, lines 100-120):
collects the submitted task cells, breaking as soon as
`first_step_done` holds and `i` exceeds `max_cores`. -/
def zt_fill_loop (first_step_done : Bool) (max_cores i : ℕ) :
    List Candidate → List Cell
  | [] => []
  | item :: rest =>
    if first_step_done = true ∧ i > max_cores then []
    else item.cell :: zt_fill_loop first_step_done max_cores (i + 1) rest

/-- Embedding of `ZebraTutorSolver.fill_input_queue` (sudoku_solver.py,
lines 93-121).  A task is identified by the cell passed to
`kb.get_unsat_core`; the other arguments (`current_struct`, `step_nr`,
`negate=True`, `core_timeout`) are supplied by the round oracle in
`zt_next_step`. -/
def zt_fill_input_queue (st : DriverState) (to_calculate : List Candidate) :
    List Cell :=
  zt_fill_loop st.first_step_done
    (max_nr_cores st.selective_threshold to_calculate.length) 1 to_calculate

/-- The eight per-excluded-value tasks of one candidate in
`DetailedZebraTutorSolver.fill_input_queue` (sudoku_solver.py, lines
269-285): one task `(row, col, j)` for every `j` in `1..9` different
from the candidate's value. -/
def det_tasks (cell : Cell) : List Cell :=
  ((List.range' 1 9).filter (fun j => j ≠ cell.2.2)).map (fun j => (cell.1, cell.2.1, j))

/-- The submission loop of `DetailedZebraTutorSolver.fill_input_queue`
(sudoku_solver.py, lines 262-285), same break condition as the base
variant but emitting eight tasks per candidate. -/
def det_fill_loop (first_step_done : Bool) (max_cores i : ℕ) :
    List Candidate → List Cell
  | [] => []
  | item :: rest =>
    if first_step_done = true ∧ i > max_cores then []
    else det_tasks item.cell ++ det_fill_loop first_step_done max_cores (i + 1) rest

/-- Embedding of `DetailedZebraTutorSolver.fill_input_queue`
(sudoku_solver.py, lines 256-286). -/
def det_fill_input_queue (st : DriverState) (to_calculate : List Candidate) :
    List Cell :=
  det_fill_loop st.first_step_done
    (max_nr_cores st.selective_threshold to_calculate.length) 1 to_calculate

/-- Embedding of `AlternativeSolver.fill_input_queue` (sudoku_solver.py,
lines 363-378): every candidate is submitted; neither `first_step_done`
nor `selective_threshold` is consulted. -/
def alt_fill_input_queue (to_calculate : List Candidate) : List Cell :=
  to_calculate.map (fun item => item.cell)

/-- The running `easiest_step` dict of `process_output_queue`
(sudoku_solver.py, lines 125-129).  The `cell` field is an `Option` so
that the driver's later `easiest_step['cell'] is None` test can be
expressed; the source initialises it to the tuple `(0, 0, 0)`, i.e.
`some (0, 0, 0)`, never to `None`. -/
structure EasiestStep where
  core : String
  cost : Cost
  cell : Option Cell
deriving DecidableEq, Repr

/-- The `for other_cell in to_calculate: if other_cell['cell'] == cell:
other_cell['cost'] = cost` in-place update (sudoku_solver.py, lines
146-148). -/
def update_costs (to_calculate : List Candidate) (cell : Cell) (cost : ℕ) :
    List Candidate :=
  to_calculate.map (fun other =>
    if other.cell = cell then { other with cost := (cost : Cost) } else other)

/-- One iteration of the `while not output_queue.empty()` loop of
`ZebraTutorSolver.process_output_queue` (sudoku_solver.py, lines
130-152): a result evaluating to cost 0 is skipped (previous cost
kept); otherwise the candidate's stored cost is rewritten and the
running minimum updated.  `costOf` models `kb.get_core_cost`. -/
def zt_process_result (costOf : String → ℕ)
    (acc : EasiestStep × List Candidate) (result : String × Cell) :
    EasiestStep × List Candidate :=
  let cost := costOf result.1
  if cost = 0 then acc
  else
    let to_calc := update_costs acc.2 result.2 cost
    if (cost : Cost) < acc.1.cost then
      ({ core := result.1, cost := (cost : Cost), cell := some result.2 }, to_calc)
    else (acc.1, to_calc)

/-- Embedding of `ZebraTutorSolver.process_output_queue`
(sudoku_solver.py, lines 123-153), also returning the mutated
`to_calculate` list. -/
def zt_process_output_queue (costOf : String → ℕ)
    (results : List (String × Cell)) (to_calculate : List Candidate) :
    EasiestStep × List Candidate :=
  results.foldl (zt_process_result costOf)
    ({ core := "", cost := ⊤, cell := some (0, 0, 0) }, to_calculate)

/-- Embedding of `ZebraTutorSolver.next_step` (sudoku_solver.py, lines
172-222).  The worker pool round is modelled by mapping the submitted
cells through the oracle `oracle step_nr cell`, which abstracts
`kb.get_unsat_core(cell, current_struct, step_nr, True, core_timeout)`;
`findCellsOf` abstracts `find_cells(core, kb.get_cost_keywords())` used
by `add_solution_step`.  Note the `easiest_step['cell'] is None` test:
`process_output_queue` initialises the cell to `some (0, 0, 0)` and
only ever stores `some` cells, so the fallback branch is unreachable
(it would raise `IndexError` on an empty `to_calculate`, modelled by
keeping `easiest` unchanged). -/
def zt_next_step (costOf : String → ℕ) (findCellsOf : String → List (ℕ × ℕ))
    (oracle : ℕ → Cell → String) (st : DriverState) : DriverState :=
  let to_calc := sorted_by_cost st.to_calculate
  let submitted := zt_fill_input_queue st to_calc
  let results := submitted.map (fun cell => (oracle st.step_nr cell, cell))
  let res := zt_process_output_queue costOf results to_calc
  let easiest :=
    if res.1.cell = none then
      match res.2 with
      | item :: _ =>
          { core := "All failed cores, picking easiest",
            cost := item.cost, cell := some item.cell }
      | [] => res.1
    else res.1
  let cell := easiest.cell.getD (0, 0, 0)
  { st with
    steps := st.steps ++
      [{ step_nr := st.step_nr, cell := cell,
         used_cells := [{ value := cell.2.2, cells := findCellsOf easiest.core }],
         current_structure := st.current_struct }],
    current_struct := st.current_struct ++ [cell],
    to_calculate := res.2.filter (fun item => item.cell ≠ cell),
    step_nr := st.step_nr + 1,
    first_step_done := true }

/-- Append an element unless already present; the `if (row, col) not in
used_cells: used_cells.append(...)` idiom and the order in which Python
iterates a freshly built set difference. -/
def insert_unique {α : Type} [DecidableEq α] (acc : List α) (x : α) : List α :=
  if x ∈ acc then acc else acc ++ [x]

/-- Lexicographic comparison of cells, Python's tuple `<=` used by
`list.sort()`. -/
def cell_le (a b : Cell) : Prop :=
  a.1 < b.1 ∨ (a.1 = b.1 ∧ (a.2.1 < b.2.1 ∨ (a.2.1 = b.2.1 ∧ a.2.2 ≤ b.2.2)))

instance : DecidableRel cell_le := fun a b => by unfold cell_le; infer_instance

/-- Python's in-place `list.sort()` on cell tuples. -/
def sort_cells (l : List Cell) : List Cell := List.insertionSort cell_le l

/-- The part of `ZebraTutorSolver.solve_stepwise` before the loop
(sudoku_solver.py, lines 236-246): `current_struct = initial_struct`
(overwriting any resumed structure), the complete structure is obtained
from the oracle (`kb.get_solution`, here the parameter `complete`),
both are sorted, and `to_calculate` is rebuilt as
`list(set(complete_struct) - set(current_struct))` with cost `math.inf`.
Python iterates that set in an unspecified order; the model fixes
first-occurrence order of the sorted complete structure. -/
def zt_solve_start (complete : List Cell) (st : DriverState) : DriverState :=
  let current := sort_cells st.initial_struct
  let complete2 := sort_cells complete
  let to_cells := (complete2.filter (fun c => c ∉ current)).foldl insert_unique []
  { st with
    current_struct := current
    complete_struct := complete2
    to_calculate := to_cells.map (fun c => ({ cell := c, cost := ⊤ } : Candidate)) }

/-- The `while` loop of `solve_stepwise` (sudoku_solver.py, lines
247-250), structurally recursive on a fuel argument.  `zt_solve_stepwise`
supplies fuel `max_steps + 1 - step_nr`, which is exact: the loop body
runs only while `step_nr ≤ max_steps` and every `next_step` increments
`step_nr` (leaving `max_steps` unchanged), so when the fuel reaches 0 we
have `step_nr > max_steps` and the Python loop would break anyway. -/
def zt_solve_loop (costOf : String → ℕ) (findCellsOf : String → List (ℕ × ℕ))
    (oracle : ℕ → Cell → String) : ℕ → DriverState → DriverState
  | 0, st => st
  | fuel + 1, st =>
    if st.current_struct.length = st.complete_struct.length then st
    else if st.step_nr > st.max_steps then st
    else zt_solve_loop costOf findCellsOf oracle fuel
        (zt_next_step costOf findCellsOf oracle st)

/-- Embedding of `ZebraTutorSolver.solve_stepwise` (sudoku_solver.py,
lines 224-250); `complete` is the assignment returned by
`kb.get_solution(initial_struct)`. -/
def zt_solve_stepwise (costOf : String → ℕ) (findCellsOf : String → List (ℕ × ℕ))
    (oracle : ℕ → Cell → String) (complete : List Cell) (st : DriverState) :
    DriverState :=
  let st2 := zt_solve_start complete st
  zt_solve_loop costOf findCellsOf oracle (st2.max_steps + 1 - st2.step_nr) st2

/-! ## Detailed variant result processing (DetailedZebraTutorSolver) -/

/-- The 729 keys `(r, c, v)` of the `core_map` comprehension
(sudoku_solver.py, lines 290-293), in its iteration order. -/
def all_cells : List Cell :=
  (List.range 9).flatMap (fun r =>
    (List.range 9).flatMap (fun c =>
      (List.range' 1 9).map (fun v => (r, c, v))))

/-- Last write wins: `core_map[cell] = core` executed over the results
in order (sudoku_solver.py, lines 294-296). -/
def last_core (results : List (String × Cell)) (cell : Cell) : Option String :=
  results.foldl (fun acc r => if r.2 = cell then some r.1 else acc) none

/-- The filtered `core_map` dict (sudoku_solver.py, lines 297-298):
cells with a received core, in key-insertion order. -/
def det_core_map (results : List (String × Cell)) : List (Cell × String) :=
  all_cells.filterMap (fun cell => (last_core results cell).map (fun core => (cell, core)))

/-- The `single_core_map` construction (sudoku_solver.py, lines
299-303): per candidate cell, the concatenation of all received cores
sharing its row and column, in `core_map` order. -/
def det_single_core_map (results : List (String × Cell))
    (to_calculate : List Candidate) : List (Cell × String) :=
  to_calculate.map (fun cand =>
    (cand.cell,
      ((det_core_map results).filter
        (fun p => p.1.1 = cand.cell.1 ∧ p.1.2.1 = cand.cell.2.1)).foldl
        (fun s p => s ++ p.2) ""))

/-- One iteration of the `for cell, core in single_core_map.items()`
loop (sudoku_solver.py, lines 309-329): identical cost-0 skip and
update logic as the base variant. -/
def det_process_item (costOf : String → ℕ)
    (acc : EasiestStep × List Candidate) (it : Cell × String) :
    EasiestStep × List Candidate :=
  let cost := costOf it.2
  if cost = 0 then acc
  else
    let to_calc := update_costs acc.2 it.1 cost
    if (cost : Cost) < acc.1.cost then
      ({ core := it.2, cost := (cost : Cost), cell := some it.1 }, to_calc)
    else (acc.1, to_calc)

/-- Embedding of `DetailedZebraTutorSolver.process_output_queue`
(sudoku_solver.py, lines 288-343), up to the selection of the easiest
step (the trailing `used_cells` collection is `det_used_cells`). -/
def det_process_output_queue (costOf : String → ℕ)
    (results : List (String × Cell)) (to_calculate : List Candidate) :
    EasiestStep × List Candidate :=
  (det_single_core_map results to_calculate).foldl (det_process_item costOf)
    ({ core := "", cost := ⊤, cell := some (0, 0, 0) }, to_calculate)

/-- The `easiest_step['used_cells']` collection at the end of
`DetailedZebraTutorSolver.process_output_queue` (sudoku_solver.py,
lines 331-342). -/
def det_used_cells (findCellsOf : String → List (ℕ × ℕ))
    (results : List (String × Cell)) (easiest_cell : Cell) : List UsedEntry :=
  ((det_core_map results).filter
    (fun p => p.1.1 = easiest_cell.1 ∧ p.1.2.1 = easiest_cell.2.1)).map
    (fun p => { value := p.1.2.2, cells := findCellsOf p.2 })

/-! ## Worker pool (Worker.run, stop_workers) -/

/-- State of one worker thread together with its shared queues and stop
event (`Worker`, sudoku_solver.py, lines 14-30).  `running` holds a task
taken from the input queue but not yet finished; `halted` records that
the `while` condition was observed false and the thread exited. -/
structure WorkerState (τ ρ : Type) where
  input_queue : List τ
  output_queue : List ρ
  running : Option τ
  stop_event : Bool
  halted : Bool
deriving DecidableEq, Repr

/-- Interleaved small-step semantics of `Worker.run` (sudoku_solver.py,
lines 26-30) together with the environment's `stop_workers` (lines
33-38, invoked by the round timer).  `run` models the task execution
`item[0](*item[1])`.  The loop head inspects queue emptiness and the
stop event only between tasks (`take`, `halt_empty`, `halt_stopped`);
a task already taken always finishes and appends its result to the
output queue (`finish`), regardless of the stop event; `set_stop` can
interleave at any time. -/
inductive WorkerStep {τ ρ : Type} (run : τ → ρ) :
    WorkerState τ ρ → WorkerState τ ρ → Prop where
  | set_stop (s : WorkerState τ ρ) :
      WorkerStep run s { s with stop_event := true }
  | take (s : WorkerState τ ρ) (t : τ) (rest : List τ) :
      s.halted = false → s.running = none → s.stop_event = false →
      s.input_queue = t :: rest →
      WorkerStep run s { s with input_queue := rest, running := some t }
  | halt_empty (s : WorkerState τ ρ) :
      s.halted = false → s.running = none → s.input_queue = [] →
      WorkerStep run s { s with halted := true }
  | halt_stopped (s : WorkerState τ ρ) :
      s.halted = false → s.running = none → s.stop_event = true →
      WorkerStep run s { s with halted := true }
  | finish (s : WorkerState τ ρ) (t : τ) :
      s.running = some t →
      WorkerStep run s
        { s with running := none, output_queue := s.output_queue ++ [run t] }

/-! ## Cost evaluator (sudoku_kb.py: find_cells, cost_function)

Python evaluates `re.findall(rf'{keyword}\([\,,\d]+\)', core)` and
`re.findall(keyword, core)`.  For the repository's keywords — alphabetic
identifiers such as `sameRow` or `gridValue` — the pattern is a literal
keyword, a literal `(`, one or more characters of the class
`[\,,\d]` (comma or digit), and a literal `)`; `re.findall` returns the
leftmost non-overlapping matches.  The scanners below implement exactly
that (validated against CPython's `re` on randomised inputs); keywords
containing regex metacharacters would crash or reinterpret the pattern
and are outside the model (`alphaKeyword`). -/

/-- Literal prefix test, `s.startswith(kw)`. -/
def startsWithKw : List Char → List Char → Bool
  | [], _ => true
  | _ :: _, [] => false
  | a :: as, b :: bs => a == b && startsWithKw as bs

/-- A character matched by the regex class `[\,,\d]`: a comma or a
digit. -/
def isClassChar (c : Char) : Bool := c == ',' || c.isDigit

/-- One attempt of the pattern `keyword\([\,,\d]+\)` anchored at the
head of `s`: succeeds iff `s = kw ++ '(' ++ tok ++ ')' ++ rest` with
`tok` a nonempty run of class characters (the run is automatically
maximal because the character after it must be `')'`, which is not a
class character); returns the token and the remainder.  The greedy
`[\,,\d]+` with backtracking reduces to this because `')'` is outside
the class. -/
def tryMatch (kw : List Char) (s : List Char) : Option (List Char × List Char) :=
  if startsWithKw kw s then
    match s.drop kw.length with
    | [] => none
    | c :: r =>
      if c = '(' then
        let tok := r.takeWhile isClassChar
        match r.dropWhile isClassChar with
        | [] => none
        | d :: rest =>
          if d = ')' ∧ tok ≠ [] then some (tok, rest) else none
      else none
  else none

/-- Leftmost non-overlapping scan collecting the tokens of all matches
of `keyword\([\,,\d]+\)`, fuel-indexed for structural recursion; fuel
`s.length` always suffices because a successful match consumes at least
two characters and a failure advances by one.  For alphabetic keywords
`match.lstrip(f'{keyword}(').rstrip(')')` recovers exactly the token,
since no stripped character (keyword letters, `(`, `)`) can occur in a
run of commas and digits. -/
def scanTokensF (kw : List Char) : ℕ → List Char → List (List Char)
  | 0, _ => []
  | _, [] => []
  | fuel + 1, c :: tail =>
    match tryMatch kw (c :: tail) with
    | some (tok, rest) => tok :: scanTokensF kw fuel rest
    | none => scanTokensF kw fuel tail

/-- The tokens of `re.findall(rf'{keyword}\([\,,\d]+\)', core)`. -/
def scanTokens (kw : List Char) (s : List Char) : List (List Char) :=
  scanTokensF kw s.length s

/-- Fuel-indexed non-overlapping occurrence count of a nonempty literal
keyword. -/
def countOccF (kw : List Char) : ℕ → List Char → ℕ
  | 0, _ => 0
  | _, [] => 0
  | fuel + 1, c :: tail =>
    if startsWithKw kw (c :: tail) then
      1 + countOccF kw fuel ((c :: tail).drop kw.length)
    else countOccF kw fuel tail

/-- `len(re.findall(keyword, core))` for a literal keyword; the empty
pattern matches once at every position, giving `length + 1`. -/
def countOcc (kw s : List Char) : ℕ :=
  if kw = [] then s.length + 1 else countOccF kw s.length s

/-- Python's `str.split(',')`. -/
def splitCommas : List Char → List (List Char)
  | [] => [[]]
  | c :: t =>
    if c = ',' then [] :: splitCommas t
    else
      match splitCommas t with
      | h :: r => (c :: h) :: r
      | [] => [[c]]

/-- Python's `int(x)` on the substrings produced by splitting a token on
commas: `none` models the `ValueError` raised on an empty (or
non-digit) string. -/
def parseNat (s : List Char) : Option ℕ :=
  if s ≠ [] ∧ s.all Char.isDigit then
    some (s.foldl (fun acc c => acc * 10 + (c.toNat - 48)) 0)
  else none

/-- Sequential `Option`-valued map: the first failure aborts, modelling
an uncaught Python exception inside a loop. -/
def mapOpt {α β : Type} (f : α → Option β) : List α → Option (List β)
  | [] => some []
  | x :: xs =>
    match f x, mapOpt f xs with
    | some y, some ys => some (y :: ys)
    | _, _ => none

/-- `for i in range(0, len(numbers)-1, 2)`: consecutive pairs, a
trailing odd element is dropped. -/
def pairUp : List ℕ → List (ℕ × ℕ)
  | a :: b :: rest => (a, b) :: pairUp rest
  | _ => []

/-- The `(row, col)` pairs contributed by one match token. -/
def tokenCells (tok : List Char) : Option (List (ℕ × ℕ)) :=
  (mapOpt parseNat (splitCommas tok)).map pairUp

/-- Embedding of `find_cells` (sudoku_kb.py, lines 11-36): scan the core
once per keyword (with `gridValue` appended), parse each match's
numbers, and accumulate the `(row, col)` pairs deduplicated in
first-occurrence order across the whole iteration. -/
def find_cells (core : String) (keywords : List String) : Option (List (ℕ × ℕ)) :=
  let kws := keywords ++ ["gridValue"]
  let toks := kws.flatMap (fun kw => scanTokens kw.data core.data)
  (mapOpt tokenCells toks).map (fun cellss => cellss.flatten.foldl insert_unique [])

/-- Embedding of `cost_function` (sudoku_kb.py, lines 39-51): the number
of distinct referenced cells, multiplied by `occurrences + 1` for each
keyword of the cost keyword list. -/
def cost_function (core : String) (keywords : List String) : Option ℕ :=
  (find_cells core keywords).map (fun cells =>
    keywords.foldl (fun cost kw => cost * (countOcc kw.data core.data + 1)) cells.length)

/-- Keywords consisting of letters only: for exactly these the literal
scanners above embed Python's regex behaviour (no metacharacters, no
characters that `lstrip`/`rstrip` could over-strip from a token). -/
def alphaKeyword (kw : String) : Prop := ∀ c ∈ kw.data, c.isAlpha = true

instance (kw : String) : Decidable (alphaKeyword kw) := by
  unfold alphaKeyword; infer_instance

/-! ## Concrete instances used by counterexamples and failing inputs -/

/-- A cost evaluator for which every core fails (evaluates to 0),
modelling a round in which all oracle calls failed. -/
def all_failed_cost : String → ℕ := fun _ => 0

/-- A cost evaluator assigning every core the cost 2. -/
def const_cost_two : String → ℕ := fun _ => 2

/-- A trivial `find_cells` abstraction for concrete runs. -/
def no_cells : String → List (ℕ × ℕ) := fun _ => []

/-- An oracle returning the same core text for every call. -/
def const_oracle : ℕ → Cell → String := fun _ _ => "core"

/-- Failing input for C1/C3: a round state in which candidate
`(2, 2, 5)` has stored cost 4 from a prior round and the other
candidate is still at `math.inf`. -/
def c1_state : DriverState :=
  { initial_struct := [], current_struct := [(0, 0, 1)],
    complete_struct := [(0, 0, 1), (2, 2, 5), (3, 3, 7)],
    to_calculate := [⟨(2, 2, 5), ((4 : ℕ) : Cost)⟩, ⟨(3, 3, 7), ⊤⟩],
    step_nr := 2, first_step_done := true, max_steps := 100,
    selective_threshold := 100, steps := [] }

/-- Failing input for C3: a fresh round whose complete structure does
not contain `(0, 0, 0)`. -/
def c3_state : DriverState :=
  { initial_struct := [], current_struct := [],
    complete_struct := [(0, 0, 5), (1, 1, 3)],
    to_calculate := [⟨(0, 0, 5), ⊤⟩, ⟨(1, 1, 3), ⊤⟩],
    step_nr := 1, first_step_done := false, max_steps := 100,
    selective_threshold := 100, steps := [] }

/-- A saved solution with a single step numbered 5 whose snapshot
contains the already-revealed cell `(0, 0, 1)`. -/
def c2_saved : List SolStep := [⟨5, (0, 0, 1), [], [(0, 0, 1)]⟩]

/-- A fresh driver configured with a step budget of 1 (scenario C). -/
def c8_state : DriverState :=
  { initial_struct := [], current_struct := [], complete_struct := [],
    to_calculate := [], step_nr := 1, first_step_done := false,
    max_steps := 1, selective_threshold := 100, steps := [] }

end SudokuProof

/-! # Theorems -/

namespace SudokuProof

theorem get_last_step_foldl_pos (steps : List SolStep) (acc : Option SolStep)
    (hpos : ∀ s ∈ steps, 1 ≤ s.step_nr) (hne : steps ≠ []) :
    steps.foldl (fun last step => if step.step_nr > 0 then some step else last) acc
      = some (steps.getLast hne) := by
  induction steps generalizing acc with
  | nil => exact absurd rfl hne
  | cons s rest ih =>
    rcases rest with _ | ⟨s2, rest2⟩
    · simp only [List.foldl_cons, List.foldl_nil, List.getLast_singleton]
      have : 1 ≤ s.step_nr := hpos s (by simp)
      simp [Nat.lt_of_lt_of_le Nat.zero_lt_one this]
    · have hne2 : s2 :: rest2 ≠ [] := by simp
      rw [List.foldl_cons, ih _ (fun x hx => hpos x (by simp [hx])) hne2]
      congr 1

/-- C10: for a non-empty steps list whose step numbers are all at least 1,
`get_last_step` returns the positionally last step of the list (the
running maximum is never updated, so every step overwrites `last_step`);
it therefore equals the highest-numbered step only when the list is
stored in step-number order. -/
theorem c10_get_last_step_positional (steps : List SolStep)
    (hpos : ∀ s ∈ steps, 1 ≤ s.step_nr) (hne : steps ≠ []) :
    get_last_step steps = some (steps.getLast hne) :=
  get_last_step_foldl_pos steps none hpos hne

/-- Witness for C10: a two-step list whose first entry has the strictly
greater step number still yields the positionally last entry. -/
theorem c10_get_last_step_positional_witness :
    get_last_step
        [⟨2, (0, 0, 1), [], []⟩, ⟨1, (0, 1, 2), [], []⟩]
      = some ⟨1, (0, 1, 2), [], []⟩ := by
  have h := c10_get_last_step_positional
    [⟨2, (0, 0, 1), [], []⟩, ⟨1, (0, 1, 2), [], []⟩]
    (by decide) (by decide)
  simpa using h

/-! ## Task submission (C4, C5) -/

theorem zt_fill_loop_all (m i : ℕ) (l : List Candidate) :
    zt_fill_loop false m i l = l.map (fun item => item.cell) := by
  induction l generalizing i with
  | nil => rfl
  | cons x xs ih => simp [zt_fill_loop, ih]

theorem zt_fill_loop_take (m i : ℕ) (l : List Candidate) :
    zt_fill_loop true m i l = (l.take (m + 1 - i)).map (fun item => item.cell) := by
  induction l generalizing i with
  | nil => simp [zt_fill_loop]
  | cons x xs ih =>
    by_cases h : i > m
    · have h0 : m + 1 - i = 0 := by omega
      simp [zt_fill_loop, h, h0]
    · have h2 : m + 1 - i = (m + 1 - (i + 1)) + 1 := by omega
      simp [zt_fill_loop, h, h2, ih]

theorem det_fill_loop_all (m i : ℕ) (l : List Candidate) :
    det_fill_loop false m i l = l.flatMap (fun item => det_tasks item.cell) := by
  induction l generalizing i with
  | nil => rfl
  | cons x xs ih => simp [det_fill_loop, ih]

theorem det_fill_loop_take (m i : ℕ) (l : List Candidate) :
    det_fill_loop true m i l
      = (l.take (m + 1 - i)).flatMap (fun item => det_tasks item.cell) := by
  induction l generalizing i with
  | nil => simp [det_fill_loop]
  | cons x xs ih =>
    by_cases h : i > m
    · have h0 : m + 1 - i = 0 := by omega
      simp [det_fill_loop, h, h0]
    · have h2 : m + 1 - i = (m + 1 - (i + 1)) + 1 := by omega
      simp [det_fill_loop, h, h2, ih]

theorem det_tasks_length (cell : Cell) (h1 : 1 ≤ cell.2.2) (h9 : cell.2.2 ≤ 9) :
    (det_tasks cell).length = 8 := by
  obtain ⟨r, c, v⟩ := cell
  simp only [det_tasks, List.length_map]
  simp only at h1 h9
  interval_cases v <;> rfl

/-- C5: in the first scheduling round (`first_step_done = false`) the
task queue is built from all candidates regardless of the configured
selection threshold: the base variant submits one task per entry of
`to_calculate` and the detailed variant its eight per-excluded-value
tasks per entry. -/
theorem c5_first_round_ignores_threshold (st : DriverState)
    (to_calc : List Candidate) (h : st.first_step_done = false) :
    zt_fill_input_queue st to_calc = to_calc.map (fun item => item.cell) ∧
    det_fill_input_queue st to_calc
      = to_calc.flatMap (fun item => det_tasks item.cell) ∧
    ((∀ c ∈ to_calc, 1 ≤ c.cell.2.2 ∧ c.cell.2.2 ≤ 9) →
      (det_fill_input_queue st to_calc).length = 8 * to_calc.length) := by
  refine ⟨?_, ?_, ?_⟩
  · unfold zt_fill_input_queue; rw [h]; exact zt_fill_loop_all _ _ _
  · unfold det_fill_input_queue; rw [h]; exact det_fill_loop_all _ _ _
  · intro hv
    unfold det_fill_input_queue
    rw [h, det_fill_loop_all]
    induction to_calc with
    | nil => rfl
    | cons x xs ih =>
      have hx := hv x (by simp)
      simp only [List.flatMap_cons, List.length_append, List.length_cons,
        det_tasks_length x.cell hx.1 hx.2,
        ih (fun c hc => hv c (by simp [hc]))]
      ring

/-- Witness for C5: with the selection threshold configured at 25%, a
first-round queue still contains both candidates (and all 16 detailed
tasks). -/
theorem c5_first_round_ignores_threshold_witness :
    zt_fill_input_queue
        { initial_struct := [], current_struct := [], complete_struct := [],
          to_calculate := [], step_nr := 1, first_step_done := false,
          max_steps := 100, selective_threshold := 25, steps := [] }
        [⟨(0, 0, 1), ⊤⟩, ⟨(0, 1, 2), ⊤⟩]
      = [(0, 0, 1), (0, 1, 2)] ∧
    (det_fill_input_queue
        { initial_struct := [], current_struct := [], complete_struct := [],
          to_calculate := [], step_nr := 1, first_step_done := false,
          max_steps := 100, selective_threshold := 25, steps := [] }
        [⟨(0, 0, 1), ⊤⟩, ⟨(0, 1, 2), ⊤⟩]).length = 16 := by
  have h := c5_first_round_ignores_threshold
    { initial_struct := [], current_struct := [], complete_struct := [],
      to_calculate := [], step_nr := 1, first_step_done := false,
      max_steps := 100, selective_threshold := 25, steps := [] }
    [⟨(0, 0, 1), ⊤⟩, ⟨(0, 1, 2), ⊤⟩] rfl
  refine ⟨by rw [h.1]; decide, ?_⟩
  rw [h.2.2 (by decide)]
  rfl

/-- Counterexample for C4: the claim quantifies over every solver
variant, but `AlternativeSolver.fill_input_queue` never applies the
selection threshold: with threshold 50% and two candidates it submits
both tasks, exceeding the allowed ceiling `max_nr_cores 50 2 = 1`. -/
theorem c4_threshold_counterexample :
    alt_fill_input_queue [⟨(0, 0, 1), ⊤⟩, ⟨(0, 1, 2), ⊤⟩] = [(0, 0, 1), (0, 1, 2)] ∧
    max_nr_cores 50 2 = 1 ∧
    ¬ ((alt_fill_input_queue [⟨(0, 0, 1), ⊤⟩, ⟨(0, 1, 2), ⊤⟩]).length
        ≤ max_nr_cores 50 2) := by
  decide

/-- C4 (amended): once the first step has completed, the ZebraTutor and
Detailed variants submit tasks only for the first
`max_nr_cores selective_threshold |to_calculate|` entries of the
candidate list they are given (the cost-ascending sorted list, see
`zt_next_step`), hence at most that many candidates produce tasks —
where `max_nr_cores` is `int(math.ceil(threshold / 100 * n))` computed
in IEEE double arithmetic as the source does, which equals the exact
ceiling `⌈threshold * n / 100⌉` except at a few inputs where the float
rounding exceeds it by one (witnessed here: threshold 14 with 50
candidates submits 8, not 7); the Alternative variant submits every
candidate unconditionally. -/
theorem c4_threshold_after_first_step (st : DriverState)
    (to_calc : List Candidate) (h : st.first_step_done = true) :
    zt_fill_input_queue st to_calc
      = (to_calc.take (max_nr_cores st.selective_threshold to_calc.length)).map
          (fun item => item.cell) ∧
    (zt_fill_input_queue st to_calc).length
      ≤ max_nr_cores st.selective_threshold to_calc.length ∧
    det_fill_input_queue st to_calc
      = (to_calc.take (max_nr_cores st.selective_threshold to_calc.length)).flatMap
          (fun item => det_tasks item.cell) ∧
    alt_fill_input_queue to_calc = to_calc.map (fun item => item.cell) ∧
    max_nr_cores 14 50 = 8 ∧ (14 * 50 + 99) / 100 = 7 := by
  have hz : zt_fill_input_queue st to_calc
      = (to_calc.take (max_nr_cores st.selective_threshold to_calc.length)).map
          (fun item => item.cell) := by
    unfold zt_fill_input_queue
    rw [h, zt_fill_loop_take]
    simp
  refine ⟨hz, ?_, ?_, rfl, by decide, by decide⟩
  · rw [hz, List.length_map, List.length_take]
    exact inf_le_left
  · unfold det_fill_input_queue
    rw [h, det_fill_loop_take]
    simp

/-- Witness for C4 (amended): threshold 50%, two candidates, first step
done: exactly one task is submitted, for the front entry. -/
theorem c4_threshold_after_first_step_witness :
    zt_fill_input_queue
        { initial_struct := [], current_struct := [], complete_struct := [],
          to_calculate := [], step_nr := 2, first_step_done := true,
          max_steps := 100, selective_threshold := 50, steps := [] }
        [⟨(0, 0, 1), ((3 : ℕ) : Cost)⟩, ⟨(0, 1, 2), ⊤⟩]
      = [(0, 0, 1)] := by
  have h := c4_threshold_after_first_step
    { initial_struct := [], current_struct := [], complete_struct := [],
      to_calculate := [], step_nr := 2, first_step_done := true,
      max_steps := 100, selective_threshold := 50, steps := [] }
    [⟨(0, 0, 1), ((3 : ℕ) : Cost)⟩, ⟨(0, 1, 2), ⊤⟩] rfl
  rw [h.1]; decide

/-! ## The dead fallback branch and its consequences (C1, C3) -/

/-- C1 (failing input): in a round where every collected result
evaluates to cost 0, `process_output_queue` returns its initial
`easiest_step`, whose cell is the tuple `(0, 0, 0)` and not `None`, so
the `easiest_step['cell'] is None` fallback in `next_step` does not
fire: the driver commits the sentinel cell `(0, 0, 0)` instead of the
stored-cost-4 candidate `(2, 2, 5)`, which remains in `to_calculate`. -/
theorem c1_fallback_never_fires :
    (zt_process_output_queue all_failed_cost
        [("core", (2, 2, 5)), ("core", (3, 3, 7))]
        (sorted_by_cost c1_state.to_calculate)).1.cell = some (0, 0, 0) ∧
    (zt_next_step all_failed_cost no_cells const_oracle c1_state).current_struct
      = [(0, 0, 1), (0, 0, 0)] ∧
    (⟨(2, 2, 5), ((4 : ℕ) : Cost)⟩ : Candidate)
      ∈ (zt_next_step all_failed_cost no_cells const_oracle c1_state).to_calculate := by
  decide

/-- C3 (failing input): the cell committed by an all-failed round is the
sentinel `(0, 0, 0)`, which is not a member of the complete structure,
so `CurrentStructure ⊆ CompleteStructure` is violated. -/
theorem c3_subset_invariant_violated :
    (0, 0, 0) ∈ (zt_next_step all_failed_cost no_cells const_oracle c3_state).current_struct ∧
    (zt_next_step all_failed_cost no_cells const_oracle c3_state).complete_struct
      = c3_state.complete_struct ∧
    (0, 0, 0) ∉ c3_state.complete_struct := by
  decide

/-- C2 (failing input): a run resumed from a saved solution whose last
step is numbered 5 with snapshot `[(0, 0, 1)]` does get
`step_nr = 5 + 1 = 6`, but `solve_stepwise` overwrites the restored
current structure with the (empty) initial given structure before the
loop starts, so solving does not start from the snapshot. -/
theorem c2_resume_start_ignores_snapshot :
    ((init_solver [] (some c2_saved) 100 100).map
        (fun st => (st.step_nr, (zt_solve_start [(0, 0, 1), (1, 1, 2)] st).current_struct)))
      = some (6, []) ∧
    (get_last_step c2_saved).map (fun s => s.current_structure) = some [(0, 0, 1)] ∧
    ([] : List Cell) ≠ [(0, 0, 1)] := by
  decide

/-! ## Zero-cost results keep the previous cost (C6) -/

theorem zt_process_result_skip (costOf : String → ℕ)
    (acc : EasiestStep × List Candidate) (r : String × Cell)
    (h : costOf r.1 = 0) : zt_process_result costOf acc r = acc := by
  simp [zt_process_result, h]

theorem update_costs_mem (to_calc : List Candidate) (cell : Cell) (cost : ℕ)
    (c1 : Candidate) (h : c1 ∈ update_costs to_calc cell cost) :
    ∃ c0 ∈ to_calc, c1.cell = c0.cell ∧
      (c1 = c0 ∨ (c1.cell = cell ∧ c1.cost = (cost : Cost))) := by
  unfold update_costs at h
  rw [List.mem_map] at h
  obtain ⟨c0, hc0, heq⟩ := h
  by_cases hcell : c0.cell = cell
  · rw [if_pos hcell] at heq
    exact ⟨c0, hc0, by rw [← heq], Or.inr ⟨by rw [← heq]; exact hcell, by rw [← heq]⟩⟩
  · rw [if_neg hcell] at heq
    exact ⟨c0, hc0, by rw [← heq], Or.inl heq.symm⟩

theorem zt_process_result_mem (costOf : String → ℕ)
    (acc : EasiestStep × List Candidate) (r : String × Cell) (c1 : Candidate)
    (h : c1 ∈ (zt_process_result costOf acc r).2) :
    ∃ c0 ∈ acc.2, c1.cell = c0.cell ∧
      (c1 = c0 ∨ (costOf r.1 ≠ 0 ∧ c1.cell = r.2 ∧ c1.cost = (costOf r.1 : Cost))) := by
  by_cases h0 : costOf r.1 = 0
  · rw [zt_process_result_skip costOf acc r h0] at h
    exact ⟨c1, h, rfl, Or.inl rfl⟩
  · have hsnd : (zt_process_result costOf acc r).2
        = update_costs acc.2 r.2 (costOf r.1) := by
      simp only [zt_process_result, if_neg h0]
      split <;> rfl
    rw [hsnd] at h
    obtain ⟨c0, hc0, hcell, hc⟩ := update_costs_mem acc.2 r.2 (costOf r.1) c1 h
    exact ⟨c0, hc0, hcell, hc.imp id (fun hh => ⟨h0, hh.1, hh.2⟩)⟩

theorem zt_fold_inv (costOf : String → ℕ) (results : List (String × Cell)) :
    ∀ (acc : EasiestStep × List Candidate),
      ∀ c1 ∈ (results.foldl (zt_process_result costOf) acc).2,
        ∃ c0 ∈ acc.2, c1.cell = c0.cell ∧
          (c1.cost = c0.cost ∨
            ∃ r ∈ results, r.2 = c1.cell ∧ costOf r.1 ≠ 0 ∧ c1.cost = (costOf r.1 : Cost)) := by
  induction results with
  | nil => exact fun acc c1 h => ⟨c1, h, rfl, Or.inl rfl⟩
  | cons r rs ih =>
    intro acc c1 h
    rw [List.foldl_cons] at h
    obtain ⟨cmid, hmid, hcell, hcost⟩ := ih (zt_process_result costOf acc r) c1 h
    obtain ⟨c0, hc0, hcell0, hc⟩ := zt_process_result_mem costOf acc r cmid hmid
    refine ⟨c0, hc0, hcell.trans hcell0, ?_⟩
    rcases hcost with h1 | ⟨r2, hr2, hr2cell, hr2n0, hr2cost⟩
    · rcases hc with rfl | ⟨hn0, heqcell, heqcost⟩
      · exact Or.inl h1
      · exact Or.inr ⟨r, by simp, by rw [hcell, heqcell], hn0, by rw [h1, heqcost]⟩
    · exact Or.inr ⟨r2, by simp [hr2], hr2cell, hr2n0, hr2cost⟩

/-- C6: a round result whose evaluated cost is 0 leaves the whole
processing state unchanged — the corresponding candidate keeps its
previous stored cost and the running minimum (`easiest_step`) is not
updated — and, across a whole round, a candidate's stored cost differs
from its previous value only because some processed result for exactly
its cell had non-zero cost (and then the new stored cost is that
result's cost).  Stated for both the base and the detailed variant
(whose per-candidate results are the entries of `single_core_map`). -/
theorem c6_zero_cost_results_ignored (costOf : String → ℕ) :
    (∀ acc r, costOf r.1 = 0 → zt_process_result costOf acc r = acc) ∧
    (∀ results to_calc, ∀ c1 ∈ (zt_process_output_queue costOf results to_calc).2,
      ∃ c0 ∈ to_calc, c1.cell = c0.cell ∧
        (c1.cost = c0.cost ∨
          ∃ r ∈ results, r.2 = c1.cell ∧ costOf r.1 ≠ 0 ∧ c1.cost = (costOf r.1 : Cost))) ∧
    (∀ acc it, costOf it.2 = 0 → det_process_item costOf acc it = acc) ∧
    (∀ results to_calc, ∀ c1 ∈ (det_process_output_queue costOf results to_calc).2,
      ∃ c0 ∈ to_calc, c1.cell = c0.cell ∧
        (c1.cost = c0.cost ∨
          ∃ it ∈ det_single_core_map results to_calc,
            it.1 = c1.cell ∧ costOf it.2 ≠ 0 ∧ c1.cost = (costOf it.2 : Cost))) := by
  have hdet : ∀ acc it, det_process_item costOf acc it
      = zt_process_result costOf acc (it.2, it.1) := fun _ _ => rfl
  refine ⟨?_, ?_, ?_, ?_⟩
  · exact fun acc r h => zt_process_result_skip costOf acc r h
  · exact fun results to_calc c1 h => zt_fold_inv costOf results _ c1 h
  · intro acc it h
    rw [hdet]
    exact zt_process_result_skip costOf acc (it.2, it.1) h
  · intro results to_calc c1 h
    unfold det_process_output_queue at h
    have hfold : (det_single_core_map results to_calc).foldl (det_process_item costOf)
        ({ core := "", cost := ⊤, cell := some (0, 0, 0) }, to_calc)
        = ((det_single_core_map results to_calc).map Prod.swap).foldl
            (zt_process_result costOf)
            ({ core := "", cost := ⊤, cell := some (0, 0, 0) }, to_calc) := by
      rw [List.foldl_map]
      rfl
    rw [hfold] at h
    obtain ⟨c0, hc0, hcell, hcost⟩ := zt_fold_inv costOf _ _ c1 h
    refine ⟨c0, hc0, hcell, hcost.imp id ?_⟩
    rintro ⟨r, hr, hrcell, hrn0, hrcost⟩
    rw [List.mem_map] at hr
    obtain ⟨it, hit, rfl⟩ := hr
    exact ⟨it, hit, hrcell, hrn0, hrcost⟩

/-- Witness for C6: a cost-0 result leaves a concrete processing state
(stored cost 4 for candidate `(2, 2, 5)`) unchanged. -/
theorem c6_zero_cost_results_ignored_witness :
    zt_process_result all_failed_cost
        ({ core := "", cost := ⊤, cell := some (0, 0, 0) },
          [⟨(2, 2, 5), ((4 : ℕ) : Cost)⟩])
        ("core", (2, 2, 5))
      = ({ core := "", cost := ⊤, cell := some (0, 0, 0) },
          [⟨(2, 2, 5), ((4 : ℕ) : Cost)⟩]) :=
  (c6_zero_cost_results_ignored all_failed_cost).1 _ _ rfl

/-! ## Step budget (C8) -/

theorem zt_next_step_fields (costOf : String → ℕ)
    (findCellsOf : String → List (ℕ × ℕ)) (oracle : ℕ → Cell → String)
    (st : DriverState) :
    (zt_next_step costOf findCellsOf oracle st).step_nr = st.step_nr + 1 ∧
    (zt_next_step costOf findCellsOf oracle st).max_steps = st.max_steps ∧
    (zt_next_step costOf findCellsOf oracle st).steps.length = st.steps.length + 1 := by
  refine ⟨rfl, rfl, ?_⟩
  simp [zt_next_step]

theorem zt_solve_loop_steps_le (costOf : String → ℕ)
    (findCellsOf : String → List (ℕ × ℕ)) (oracle : ℕ → Cell → String) :
    ∀ (fuel : ℕ) (st : DriverState),
      (zt_solve_loop costOf findCellsOf oracle fuel st).steps.length
        ≤ st.steps.length + fuel := by
  intro fuel
  induction fuel with
  | zero => intro st; simp [zt_solve_loop]
  | succ n ih =>
    intro st
    simp only [zt_solve_loop]
    split
    · omega
    · split
      · omega
      · have h1 := ih (zt_next_step costOf findCellsOf oracle st)
        have h2 := (zt_next_step_fields costOf findCellsOf oracle st).2.2
        omega

theorem zt_solve_start_fields (complete : List Cell) (st : DriverState) :
    (zt_solve_start complete st).steps = st.steps ∧
    (zt_solve_start complete st).step_nr = st.step_nr ∧
    (zt_solve_start complete st).max_steps = st.max_steps :=
  ⟨rfl, rfl, rfl⟩

/-- C8: with a finite step budget the stepwise loop halts after at most
`max_steps` committed steps on any fresh run (the loop breaks as soon as
`step_nr` exceeds `max_steps`, and `step_nr`, starting at 1, grows by one
per committed step); in particular with a budget of 1 and three cells to
reveal, a concrete run records exactly one step and leaves a non-empty
`to_calculate`. -/
theorem c8_step_budget_bounds_steps :
    (∀ (costOf : String → ℕ) (findCellsOf : String → List (ℕ × ℕ))
        (oracle : ℕ → Cell → String) (complete given : List Cell)
        (thr m : ℕ) (st : DriverState),
      init_solver given none thr m = some st →
      (zt_solve_stepwise costOf findCellsOf oracle complete st).steps.length ≤ m) ∧
    (zt_solve_stepwise const_cost_two no_cells const_oracle
        [(0, 0, 1), (1, 1, 2), (2, 2, 3)] c8_state).steps.length = 1 ∧
    (zt_solve_stepwise const_cost_two no_cells const_oracle
        [(0, 0, 1), (1, 1, 2), (2, 2, 3)] c8_state).to_calculate ≠ [] := by
  refine ⟨?_, by decide, by decide⟩
  intro costOf findCellsOf oracle complete given thr m st hinit
  simp only [init_solver, Option.some.injEq] at hinit
  have hsteps : st.steps = [] := by rw [← hinit]
  have hnr : st.step_nr = 1 := by rw [← hinit]
  have hmax : st.max_steps = m := by rw [← hinit]
  obtain ⟨hs, hn, hm⟩ := zt_solve_start_fields complete st
  unfold zt_solve_stepwise
  show (zt_solve_loop costOf findCellsOf oracle
      ((zt_solve_start complete st).max_steps + 1 - (zt_solve_start complete st).step_nr)
      (zt_solve_start complete st)).steps.length ≤ m
  rw [hn, hm, hnr, hmax]
  have h1 := zt_solve_loop_steps_le costOf findCellsOf oracle (m + 1 - 1)
    (zt_solve_start complete st)
  rw [hs, hsteps] at h1
  simpa using h1

/-- Witness for C8: the general budget bound applied to the concrete
budget-1 run. -/
theorem c8_step_budget_bounds_steps_witness :
    (zt_solve_stepwise const_cost_two no_cells const_oracle
        [(0, 0, 1), (1, 1, 2), (2, 2, 3)] c8_state).steps.length ≤ 1 :=
  c8_step_budget_bounds_steps.1 const_cost_two no_cells const_oracle
    [(0, 0, 1), (1, 1, 2), (2, 2, 3)] [] 100 1 c8_state rfl

/-! ## Worker stop signal (C9) -/

/-- C9: once the stop event is set, a worker starts no new task — along
any continuation of the trace the input queue is untouched (queued tasks
are never started), the stop event stays set, and the worker's running
slot only ever holds the task that was already in flight, or nothing;
moreover a worker with a task in flight can always complete it — even
with the stop event set — appending its result to the results sink that
the round's evaluation drains. -/
theorem c9_stop_checked_between_tasks {τ ρ : Type} (run : τ → ρ) :
    (∀ s s' : WorkerState τ ρ, s.stop_event = true →
      Relation.ReflTransGen (WorkerStep run) s s' →
      s'.input_queue = s.input_queue ∧ s'.stop_event = true ∧
        (s'.running = s.running ∨ s'.running = none)) ∧
    (∀ (s : WorkerState τ ρ) (t : τ), s.running = some t →
      WorkerStep run s
        { s with running := none, output_queue := s.output_queue ++ [run t] }) := by
  constructor
  · intro s s' hstop hsteps
    induction hsteps with
    | refl => exact ⟨rfl, hstop, Or.inl rfl⟩
    | tail hab hbc ih =>
      obtain ⟨hq, hstop2, hrun⟩ := ih
      cases hbc with
      | set_stop => exact ⟨hq, rfl, hrun⟩
      | take t rest h1 h2 h3 h4 => rw [hstop2] at h3; cases h3
      | halt_empty h1 h2 h3 => exact ⟨hq, hstop2, hrun⟩
      | halt_stopped h1 h2 h3 => exact ⟨hq, hstop2, hrun⟩
      | finish t h1 => exact ⟨hq, hstop2, Or.inr rfl⟩
  · exact fun s t h => WorkerStep.finish s t h

/-- Witness for C9: from a stopped state with two queued tasks and a
task in flight, finishing the in-flight task and then halting leaves the
two queued tasks unstarted and the finished result in the sink. -/
theorem c9_stop_checked_between_tasks_witness :
    ((⟨[5, 6], [0, 3], none, true, true⟩ : WorkerState ℕ ℕ).input_queue
        = (⟨[5, 6], [0], some 3, true, false⟩ : WorkerState ℕ ℕ).input_queue ∧
      (⟨[5, 6], [0, 3], none, true, true⟩ : WorkerState ℕ ℕ).stop_event = true ∧
      ((⟨[5, 6], [0, 3], none, true, true⟩ : WorkerState ℕ ℕ).running
          = (⟨[5, 6], [0], some 3, true, false⟩ : WorkerState ℕ ℕ).running ∨
        (⟨[5, 6], [0, 3], none, true, true⟩ : WorkerState ℕ ℕ).running = none)) ∧
    WorkerStep (fun t : ℕ => t) (⟨[5, 6], [0], some 3, true, false⟩ : WorkerState ℕ ℕ)
      ⟨[5, 6], [0, 3], none, true, false⟩ := by
  constructor
  · exact (c9_stop_checked_between_tasks (fun t : ℕ => t)).1
      ⟨[5, 6], [0], some 3, true, false⟩ ⟨[5, 6], [0, 3], none, true, true⟩ rfl
      (Relation.ReflTransGen.head (WorkerStep.finish _ 3 rfl)
        (Relation.ReflTransGen.single (WorkerStep.halt_stopped _ rfl rfl rfl)))
  · exact (c9_stop_checked_between_tasks (fun t : ℕ => t)).2
      ⟨[5, 6], [0], some 3, true, false⟩ 3 rfl

/-! ## Cost evaluator: scanner characterisation (towards C7) -/

theorem startsWithKw_iff (kw : List Char) :
    ∀ s, startsWithKw kw s = true ↔ ∃ r, s = kw ++ r := by
  induction kw with
  | nil =>
    intro s
    simp only [startsWithKw, List.nil_append, true_iff]
    exact ⟨s, rfl⟩
  | cons a as ih =>
    intro s
    cases s with
    | nil =>
      simp [startsWithKw]
    | cons b bs =>
      simp only [startsWithKw, Bool.and_eq_true, beq_iff_eq, ih bs,
        List.cons_append, List.cons.injEq]
      constructor
      · rintro ⟨rfl, r, rfl⟩
        exact ⟨r, rfl, rfl⟩
      · rintro ⟨r, rfl, rfl⟩
        exact ⟨rfl, r, rfl⟩

theorem takeWhile_dropWhile_all_append (p : Char → Bool) :
    ∀ (l1 : List Char) (y : Char) (ys : List Char),
      (∀ x ∈ l1, p x = true) → p y = false →
      (l1 ++ y :: ys).takeWhile p = l1 ∧ (l1 ++ y :: ys).dropWhile p = y :: ys := by
  intro l1
  induction l1 with
  | nil =>
    intro y ys _ hy
    simp [List.takeWhile_cons, List.dropWhile_cons, hy]
  | cons x xs ih =>
    intro y ys hall hy
    have hx : p x = true := hall x (by simp)
    have hrest := ih y ys (fun z hz => hall z (by simp [hz])) hy
    simp [List.takeWhile_cons, List.dropWhile_cons, hx, hrest.1, hrest.2]

theorem tryMatch_eq_some_iff (kw s tok rest : List Char) :
    tryMatch kw s = some (tok, rest) ↔
      s = kw ++ '(' :: (tok ++ ')' :: rest) ∧ tok ≠ [] ∧
        ∀ c ∈ tok, isClassChar c = true := by
  constructor
  · intro h
    unfold tryMatch at h
    by_cases hp : startsWithKw kw s
    case neg => simp [hp] at h
    rw [if_pos hp] at h
    obtain ⟨r0, rfl⟩ := (startsWithKw_iff kw s).mp hp
    rw [List.drop_left] at h
    cases r0 with
    | nil => exact absurd h (by simp)
    | cons c r =>
      by_cases hc : c = '('
      case neg => simp [hc] at h
      subst hc
      rcases hd : r.dropWhile isClassChar with _ | ⟨d, rest0⟩
      · simp [hd] at h
      · by_cases hcond : d = ')' ∧ r.takeWhile isClassChar ≠ []
        · obtain ⟨h3, h4⟩ : r.takeWhile isClassChar = tok ∧ rest0 = rest := by
            have h2 : some (r.takeWhile isClassChar, rest0) = some (tok, rest) := by
              simpa [hd, hcond.1, hcond.2] using h
            have h5 := Option.some.inj h2
            exact ⟨congrArg Prod.fst h5, congrArg Prod.snd h5⟩
          subst h3
          subst h4
          refine ⟨?_, hcond.2, fun c hc => List.mem_takeWhile_imp hc⟩
          have hr : r = r.takeWhile isClassChar ++ ')' :: rest0 := by
            conv_lhs => rw [← List.takeWhile_append_dropWhile isClassChar r]
            rw [hd, hcond.1]
          rw [← hr]
        · simp [hd, hcond] at h
          exact absurd ⟨h.1.1, by simpa using h.1.2⟩ hcond
  · rintro ⟨rfl, hne, hall⟩
    have hp : startsWithKw kw (kw ++ '(' :: (tok ++ ')' :: rest)) = true :=
      (startsWithKw_iff kw _).mpr ⟨_, rfl⟩
    obtain ⟨ht, hd⟩ :=
      takeWhile_dropWhile_all_append isClassChar tok ')' rest hall rfl
    unfold tryMatch
    rw [if_pos hp, List.drop_left]
    simp [ht, hd, hne]

theorem tryMatch_append (kw a b tok rest : List Char)
    (h : tryMatch kw a = some (tok, rest)) :
    tryMatch kw (a ++ b) = some (tok, rest ++ b) := by
  rw [tryMatch_eq_some_iff] at h ⊢
  obtain ⟨rfl, h2, h3⟩ := h
  exact ⟨by simp, h2, h3⟩

theorem tryMatch_some_rest_length (kw s tok rest : List Char)
    (h : tryMatch kw s = some (tok, rest)) : rest.length < s.length := by
  rw [tryMatch_eq_some_iff] at h
  rw [h.1]
  simp [List.length_append]
  omega

theorem paren_mem_of_tryMatch_some (kw s tok rest : List Char)
    (h : tryMatch kw s = some (tok, rest)) : ')' ∈ s := by
  rw [tryMatch_eq_some_iff] at h
  rw [h.1]
  simp

theorem scanTokensF_congr (kw : List Char) :
    ∀ (f1 : ℕ) (s : List Char) (f2 : ℕ), s.length ≤ f1 → s.length ≤ f2 →
      scanTokensF kw f1 s = scanTokensF kw f2 s := by
  intro f1
  induction f1 with
  | zero =>
    intro s f2 h1 _
    have hs : s = [] := List.eq_nil_of_length_eq_zero (Nat.le_zero.mp h1)
    subst hs
    cases f2 <;> rfl
  | succ n ih =>
    intro s f2 h1 h2
    cases s with
    | nil => cases f2 <;> rfl
    | cons c tail =>
      cases f2 with
      | zero => simp at h2
      | succ m =>
        simp only [scanTokensF]
        rcases hm : tryMatch kw (c :: tail) with _ | ⟨tok, rest⟩
        · simp only [hm]
          exact ih tail m (by simpa using h1) (by simpa using h2)
        · simp only [hm]
          have hlt := tryMatch_some_rest_length kw (c :: tail) tok rest hm
          simp only [List.length_cons] at hlt h1 h2
          rw [ih rest m (by omega) (by omega)]

theorem scanTokens_cons (kw : List Char) (c : Char) (tail : List Char) :
    scanTokens kw (c :: tail) =
      match tryMatch kw (c :: tail) with
      | some (tok, rest) => tok :: scanTokens kw rest
      | none => scanTokens kw tail := by
  show scanTokensF kw (tail.length + 1) (c :: tail) = _
  simp only [scanTokensF]
  rcases hm : tryMatch kw (c :: tail) with _ | ⟨tok, rest⟩
  · rfl
  · have hlt := tryMatch_some_rest_length kw (c :: tail) tok rest hm
    simp only [List.length_cons] at hlt
    simp only []
    rw [scanTokensF_congr kw tail.length rest rest.length (by omega) le_rfl]
    rfl

theorem scanTokens_of_no_paren (kw : List Char) :
    ∀ s : List Char, ')' ∉ s → scanTokens kw s = [] := by
  intro s
  induction s with
  | nil => intro _; rfl
  | cons c tail ih =>
    intro h
    rcases hm : tryMatch kw (c :: tail) with _ | ⟨tok, rest⟩
    · rw [scanTokens_cons, hm]
      exact ih (List.not_mem_of_not_mem_cons h)
    · exact absurd (paren_mem_of_tryMatch_some kw (c :: tail) tok rest hm) h

theorem tryMatch_none_append_some (kw a b tokX restX : List Char)
    (hpar : ')' ∉ kw) (hnone : tryMatch kw a = none)
    (hsome : tryMatch kw (a ++ b) = some (tokX, restX)) : ')' ∉ a := by
  rw [tryMatch_eq_some_iff] at hsome
  obtain ⟨heq, hne, hall⟩ := hsome
  have heq2 : a ++ b = (kw ++ '(' :: tokX) ++ ')' :: restX := by
    rw [heq]; simp
  by_cases hlen : a.length ≤ (kw ++ '(' :: tokX).length
  · have ha : a = (kw ++ '(' :: tokX).take a.length := by
      have h1 : a = ((kw ++ '(' :: tokX) ++ ')' :: restX).take a.length := by
        rw [← heq2, List.take_left]
      rw [List.take_append_eq_append_take] at h1
      have hsub : a.length - (kw ++ '(' :: tokX).length = 0 := by omega
      rw [hsub] at h1
      simpa using h1
    intro hmem
    have h2 : ')' ∈ kw ++ '(' :: tokX := List.mem_of_mem_take (ha ▸ hmem)
    rcases List.mem_append.mp h2 with h3 | h3
    · exact hpar h3
    · rcases List.mem_cons.mp h3 with h4 | h4
      · exact absurd h4 (by decide)
      · exact absurd (hall ')' h4) (by decide)
  · push_neg at hlen
    obtain ⟨k, hk⟩ : ∃ k, a.length - (kw ++ '(' :: tokX).length = k + 1 :=
      ⟨a.length - (kw ++ '(' :: tokX).length - 1, by omega⟩
    have ha : a = (kw ++ '(' :: tokX) ++ ')' :: restX.take k := by
      have h1 : a = ((kw ++ '(' :: tokX) ++ ')' :: restX).take a.length := by
        rw [← heq2, List.take_left]
      rw [List.take_append_eq_append_take, List.take_of_length_le (le_of_lt hlen), hk,
        List.take_succ_cons] at h1
      exact h1
    have hmatch : tryMatch kw a = some (tokX, restX.take k) := by
      rw [tryMatch_eq_some_iff]
      exact ⟨by rw [ha]; simp, hne, hall⟩
    rw [hnone] at hmatch
    exact absurd hmatch (by simp)

/-- Every match found in `a` is still found (with the same token) after
appending a suffix `b`: matches wholly inside `a` are preserved, and a
new match spanning the boundary can only arise when `a` holds no `')'`
at all — hence no match of its own. -/
theorem scanTokens_append_mem (kw : List Char) (hpar : ')' ∉ kw) :
    ∀ (n : ℕ) (a b : List Char), a.length ≤ n →
      ∀ tok ∈ scanTokens kw a, tok ∈ scanTokens kw (a ++ b) := by
  intro n
  induction n with
  | zero =>
    intro a b h tok htok
    have ha : a = [] := List.eq_nil_of_length_eq_zero (Nat.le_zero.mp h)
    subst ha
    exact absurd htok (by simp [scanTokens, scanTokensF])
  | succ n ih =>
    intro a b hlen tok htok
    cases a with
    | nil => exact absurd htok (by simp [scanTokens, scanTokensF])
    | cons c t =>
      simp only [List.length_cons] at hlen
      rcases hm : tryMatch kw (c :: t) with _ | ⟨tok0, rest⟩
      · rw [scanTokens_cons, hm] at htok
        rcases hm2 : tryMatch kw ((c :: t) ++ b) with _ | ⟨tokX, restX⟩
        · rw [List.cons_append] at hm2 ⊢
          rw [scanTokens_cons, hm2]
          exact ih t b (by omega) tok htok
        · have hnp : ')' ∉ c :: t :=
            tryMatch_none_append_some kw (c :: t) b tokX restX hpar hm hm2
          have ht : scanTokens kw t = [] :=
            scanTokens_of_no_paren kw t (List.not_mem_of_not_mem_cons hnp)
          rw [ht] at htok
          exact absurd htok (by simp)
      · rw [scanTokens_cons, hm] at htok
        have hm2 := tryMatch_append kw (c :: t) b tok0 rest hm
        rw [List.cons_append] at hm2 ⊢
        rw [scanTokens_cons, hm2]
        have hlt := tryMatch_some_rest_length kw (c :: t) tok0 rest hm
        simp only [List.length_cons] at hlt
        rcases List.mem_cons.mp htok with h1 | h1
        · exact List.mem_cons.mpr (Or.inl h1)
        · exact List.mem_cons.mpr (Or.inr (ih rest b (by omega) tok h1))

theorem countOccF_congr (kw : List Char) (hk : kw ≠ []) :
    ∀ (f1 : ℕ) (s : List Char) (f2 : ℕ), s.length ≤ f1 → s.length ≤ f2 →
      countOccF kw f1 s = countOccF kw f2 s := by
  intro f1
  induction f1 with
  | zero =>
    intro s f2 h1 _
    have hs : s = [] := List.eq_nil_of_length_eq_zero (Nat.le_zero.mp h1)
    subst hs
    cases f2 <;> rfl
  | succ n ih =>
    intro s f2 h1 h2
    cases s with
    | nil => cases f2 <;> rfl
    | cons c t =>
      cases f2 with
      | zero => simp at h2
      | succ m =>
        simp only [countOccF]
        by_cases hp : startsWithKw kw (c :: t)
        · simp only [hp, if_true]
          have hk1 : 0 < kw.length := List.length_pos.mpr hk
          have hdl : ((c :: t).drop kw.length).length = (c :: t).length - kw.length := by
            simp
          simp only [List.length_cons] at h1 h2 hdl
          rw [ih ((c :: t).drop kw.length) m (by omega) (by omega)]
        · simp only [hp, if_false]
          simp only [List.length_cons] at h1 h2
          exact ih t m (by omega) (by omega)

theorem countOccF_zero_of_short (kw : List Char) (hk : kw ≠ []) :
    ∀ (f : ℕ) (s : List Char), s.length < kw.length → countOccF kw f s = 0 := by
  intro f
  induction f with
  | zero => intro s _; cases s <;> rfl
  | succ n ih =>
    intro s h
    cases s with
    | nil => rfl
    | cons c t =>
      simp only [countOccF]
      by_cases hp : startsWithKw kw (c :: t)
      · obtain ⟨r, hr⟩ := (startsWithKw_iff kw (c :: t)).mp hp
        have hge : kw.length ≤ (c :: t).length := by rw [hr]; simp
        omega
      · simp only [hp, if_false]
        have ht : t.length < kw.length := by
          simp only [List.length_cons] at h; omega
        exact ih t ht

theorem startsWithKw_of_le_append (kw a b : List Char)
    (hp : startsWithKw kw (a ++ b) = true) (hle : kw.length ≤ a.length) :
    startsWithKw kw a = true := by
  obtain ⟨r, hr⟩ := (startsWithKw_iff kw (a ++ b)).mp hp
  refine (startsWithKw_iff kw a).mpr ⟨a.drop kw.length, ?_⟩
  have h1 : a.take kw.length = kw := by
    have h2 : (a ++ b).take kw.length = kw := by
      rw [hr, List.take_append_eq_append_take]
      have h0 : kw.length - kw.length = 0 := by omega
      rw [List.take_of_length_le le_rfl, h0]
      simp
    rw [List.take_append_eq_append_take] at h2
    have h0 : kw.length - a.length = 0 := by omega
    rw [h0] at h2
    simpa [List.take_of_length_le hle] using h2
  conv_lhs => rw [← List.take_append_drop kw.length a]
  rw [h1]

/-- Occurrence counts of a literal keyword never decrease when a suffix
is appended: occurrences inside `a` are found at the same positions in
`a ++ b`, and a boundary-spanning occurrence can only start where no
whole occurrence fits inside `a` any more. -/
theorem countOccF_append_le (kw : List Char) (hk : kw ≠ []) :
    ∀ (n : ℕ) (a b : List Char), a.length ≤ n →
      countOccF kw a.length a ≤ countOccF kw (a ++ b).length (a ++ b) := by
  intro n
  induction n with
  | zero =>
    intro a b h
    have ha : a = [] := List.eq_nil_of_length_eq_zero (Nat.le_zero.mp h)
    subst ha
    simp [countOccF]
  | succ n ih =>
    intro a b hlen
    cases a with
    | nil => simp [countOccF]
    | cons c t =>
      simp only [List.length_cons] at hlen
      have hk1 : 0 < kw.length := List.length_pos.mpr hk
      by_cases hp : startsWithKw kw (c :: t)
      · obtain ⟨r, hr⟩ := (startsWithKw_iff kw (c :: t)).mp hp
        have hp2 : startsWithKw kw (c :: (t ++ b)) = true :=
          (startsWithKw_iff kw _).mpr
            ⟨r ++ b, by rw [show c :: (t ++ b) = (c :: t) ++ b from rfl, hr]; simp⟩
        have hkl : kw.length ≤ (c :: t).length := by rw [hr]; simp
        have hL : countOccF kw (c :: t).length (c :: t)
            = 1 + countOccF kw t.length ((c :: t).drop kw.length) := by
          show countOccF kw (t.length + 1) (c :: t) = _
          simp only [countOccF, hp, if_true]
        have hR : countOccF kw ((c :: t) ++ b).length ((c :: t) ++ b)
            = 1 + countOccF kw (t ++ b).length ((c :: (t ++ b)).drop kw.length) := by
          rw [List.cons_append]
          show countOccF kw ((t ++ b).length + 1) (c :: (t ++ b)) = _
          simp only [countOccF, hp2, if_true]
        have hdrop : (c :: (t ++ b)).drop kw.length = (c :: t).drop kw.length ++ b := by
          rw [show c :: (t ++ b) = (c :: t) ++ b from rfl]
          exact List.drop_append_of_le_length hkl
        have e1 : countOccF kw t.length ((c :: t).drop kw.length)
            = countOccF kw ((c :: t).drop kw.length).length ((c :: t).drop kw.length) := by
          apply countOccF_congr kw hk
          · simp only [List.length_drop, List.length_cons]; omega
          · exact le_rfl
        have e2 : countOccF kw (t ++ b).length ((c :: t).drop kw.length ++ b)
            = countOccF kw ((c :: t).drop kw.length ++ b).length
                ((c :: t).drop kw.length ++ b) := by
          apply countOccF_congr kw hk
          · simp only [List.length_append, List.length_drop, List.length_cons]
            simp only [List.length_cons] at hkl
            omega
          · exact le_rfl
        rw [hL, hR, hdrop, e1, e2]
        have hih := ih ((c :: t).drop kw.length) b
          (by simp only [List.length_drop, List.length_cons]; omega)
        omega
      · by_cases hp2 : startsWithKw kw ((c :: t) ++ b)
        · have hlong : (c :: t).length < kw.length := by
            by_contra hcon
            push_neg at hcon
            exact hp (startsWithKw_of_le_append kw (c :: t) b hp2 hcon)
          have h0 : countOccF kw (c :: t).length (c :: t) = 0 :=
            countOccF_zero_of_short kw hk (c :: t).length (c :: t) hlong
          rw [h0]
          exact Nat.zero_le _
        · have hp2' : startsWithKw kw (c :: (t ++ b)) ≠ true := by
            rw [show c :: (t ++ b) = (c :: t) ++ b from rfl]
            exact fun hcc => hp2 hcc
          have hL : countOccF kw (c :: t).length (c :: t)
              = countOccF kw t.length t := by
            show countOccF kw (t.length + 1) (c :: t) = _
            simp only [countOccF, hp, Bool.false_eq_true, if_false]
          have hR : countOccF kw ((c :: t) ++ b).length ((c :: t) ++ b)
              = countOccF kw (t ++ b).length (t ++ b) := by
            rw [List.cons_append]
            show countOccF kw ((t ++ b).length + 1) (c :: (t ++ b)) = _
            simp only [countOccF, hp2', Bool.false_eq_true, if_false]
          rw [hL, hR]
          exact ih t b (by omega)

theorem countOcc_append_le (kw a b : List Char) :
    countOcc kw a ≤ countOcc kw (a ++ b) := by
  by_cases hk : kw = []
  · simp [countOcc, hk]
  · simp only [countOcc, hk, if_false]
    exact countOccF_append_le kw hk a.length a b le_rfl

/-! ## find_cells: membership, dedup, and monotonicity (C7) -/

theorem mapOpt_mem_left {α β : Type} (f : α → Option β) :
    ∀ (l : List α) (l2 : List β), mapOpt f l = some l2 →
      ∀ x ∈ l, ∃ y, f x = some y ∧ y ∈ l2 := by
  intro l
  induction l with
  | nil => intro l2 _ x hx; exact absurd hx (by simp)
  | cons a as ih =>
    intro l2 h x hx
    simp only [mapOpt] at h
    rcases hfa : f a with _ | ⟨y⟩ <;> rw [hfa] at h
    · exact absurd h (by simp)
    · rcases hrec : mapOpt f as with _ | ⟨ys⟩ <;> rw [hrec] at h
      · exact absurd h (by simp)
      · have hl2 : l2 = y :: ys := (Option.some.inj h).symm
        subst hl2
        rcases List.mem_cons.mp hx with rfl | hx2
        · exact ⟨y, hfa, by simp⟩
        · obtain ⟨y2, hy2, hy2m⟩ := ih ys hrec x hx2
          exact ⟨y2, hy2, by simp [hy2m]⟩

theorem mapOpt_mem_right {α β : Type} (f : α → Option β) :
    ∀ (l : List α) (l2 : List β), mapOpt f l = some l2 →
      ∀ y ∈ l2, ∃ x ∈ l, f x = some y := by
  intro l
  induction l with
  | nil =>
    intro l2 h y hy
    have : l2 = [] := (Option.some.inj h).symm
    subst this
    exact absurd hy (by simp)
  | cons a as ih =>
    intro l2 h y hy
    simp only [mapOpt] at h
    rcases hfa : f a with _ | ⟨y0⟩ <;> rw [hfa] at h
    · exact absurd h (by simp)
    · rcases hrec : mapOpt f as with _ | ⟨ys⟩ <;> rw [hrec] at h
      · exact absurd h (by simp)
      · have hl2 : l2 = y0 :: ys := (Option.some.inj h).symm
        subst hl2
        rcases List.mem_cons.mp hy with rfl | hy2
        · exact ⟨a, by simp, hfa⟩
        · obtain ⟨x, hx, hxy⟩ := ih ys hrec y hy2
          exact ⟨x, by simp [hx], hxy⟩

theorem mem_foldl_insert_unique {α : Type} [DecidableEq α] :
    ∀ (l acc : List α) (x : α),
      x ∈ l.foldl insert_unique acc ↔ x ∈ acc ∨ x ∈ l := by
  intro l
  induction l with
  | nil => intro acc x; simp
  | cons a as ih =>
    intro acc x
    rw [List.foldl_cons, ih]
    unfold insert_unique
    by_cases ha : a ∈ acc
    · rw [if_pos ha]
      constructor
      · rintro (h | h)
        · exact Or.inl h
        · exact Or.inr (by simp [h])
      · rintro (h | h)
        · exact Or.inl h
        · rcases List.mem_cons.mp h with rfl | h2
          · exact Or.inl ha
          · exact Or.inr h2
    · rw [if_neg ha]
      simp only [List.mem_append, List.mem_singleton, List.mem_cons]
      tauto

theorem nodup_foldl_insert_unique {α : Type} [DecidableEq α] :
    ∀ (l acc : List α), acc.Nodup → (l.foldl insert_unique acc).Nodup := by
  intro l
  induction l with
  | nil => intro acc h; exact h
  | cons a as ih =>
    intro acc h
    rw [List.foldl_cons]
    apply ih
    unfold insert_unique
    by_cases ha : a ∈ acc
    · rw [if_pos ha]; exact h
    · rw [if_neg ha]
      rw [List.nodup_append]
      exact ⟨h, List.nodup_singleton a,
        fun x hx hxa => ha ((List.mem_singleton.mp hxa) ▸ hx)⟩

theorem find_cells_mem_iff (core : String) (keywords : List String)
    (cells : List (ℕ × ℕ)) (h : find_cells core keywords = some cells) :
    ∀ p : ℕ × ℕ, p ∈ cells ↔
      ∃ kw ∈ keywords ++ ["gridValue"],
        ∃ tok ∈ scanTokens kw.data core.data,
          ∃ cs, tokenCells tok = some cs ∧ p ∈ cs := by
  intro p
  rw [show find_cells core keywords
      = (mapOpt tokenCells ((keywords ++ ["gridValue"]).flatMap
          (fun kw => scanTokens kw.data core.data))).map
          (fun cellss => cellss.flatten.foldl insert_unique []) from rfl] at h
  rcases hmo : mapOpt tokenCells
      ((keywords ++ ["gridValue"]).flatMap (fun kw => scanTokens kw.data core.data))
    with _ | ⟨cellss⟩ <;> rw [hmo] at h
  · exact absurd h (by simp)
  · simp only [Option.map_some'] at h
    have hc : cells = cellss.flatten.foldl insert_unique [] := (Option.some.inj h).symm
    subst hc
    rw [mem_foldl_insert_unique]
    simp only [List.mem_flatten, List.not_mem_nil, false_or]
    constructor
    · rintro ⟨cs, hcs, hp⟩
      obtain ⟨tok, htok, hts⟩ := mapOpt_mem_right tokenCells _ cellss hmo cs hcs
      obtain ⟨kw, hkw, htok2⟩ := List.mem_flatMap.mp htok
      exact ⟨kw, hkw, tok, htok2, cs, hts, hp⟩
    · rintro ⟨kw, hkw, tok, htok, cs, hcs, hp⟩
      have htoks : tok ∈ (keywords ++ ["gridValue"]).flatMap
          (fun kw => scanTokens kw.data core.data) :=
        List.mem_flatMap.mpr ⟨kw, hkw, htok⟩
      obtain ⟨cs2, hcs2, hcs2m⟩ := mapOpt_mem_left tokenCells _ cellss hmo tok htoks
      rw [hcs] at hcs2
      exact ⟨cs2, hcs2m, (Option.some.inj hcs2) ▸ hp⟩

theorem find_cells_nodup (core : String) (keywords : List String)
    (cells : List (ℕ × ℕ)) (h : find_cells core keywords = some cells) :
    cells.Nodup := by
  rw [show find_cells core keywords
      = (mapOpt tokenCells ((keywords ++ ["gridValue"]).flatMap
          (fun kw => scanTokens kw.data core.data))).map
          (fun cellss => cellss.flatten.foldl insert_unique []) from rfl] at h
  rcases hmo : mapOpt tokenCells
      ((keywords ++ ["gridValue"]).flatMap (fun kw => scanTokens kw.data core.data))
    with _ | ⟨cellss⟩ <;> rw [hmo] at h
  · exact absurd h (by simp)
  · simp only [Option.map_some'] at h
    have hc : cells = cellss.flatten.foldl insert_unique [] := (Option.some.inj h).symm
    subst hc
    exact nodup_foldl_insert_unique _ _ List.nodup_nil

theorem find_cells_append_subset (keywords : List String) (a b : String)
    (cellsA cellsAB : List (ℕ × ℕ))
    (hkw : ∀ kw ∈ keywords, alphaKeyword kw)
    (ha : find_cells a keywords = some cellsA)
    (hab : find_cells (a ++ b) keywords = some cellsAB) :
    ∀ p ∈ cellsA, p ∈ cellsAB := by
  intro p hp
  rw [find_cells_mem_iff a keywords cellsA ha p] at hp
  rw [find_cells_mem_iff (a ++ b) keywords cellsAB hab p]
  obtain ⟨kw, hkwm, tok, htok, cs, hcs, hpc⟩ := hp
  refine ⟨kw, hkwm, tok, ?_, cs, hcs, hpc⟩
  have hpar : ')' ∉ kw.data := by
    intro hmem
    rcases List.mem_append.mp hkwm with h1 | h1
    · exact absurd (hkw kw h1 ')' hmem) (by decide)
    · have hkg : kw = "gridValue" := by simpa using h1
      subst hkg
      exact absurd hmem (by decide)
  have hdata : (a ++ b).data = a.data ++ b.data := rfl
  rw [hdata]
  exact scanTokens_append_mem kw.data hpar a.data.length a.data b.data le_rfl tok htok

theorem foldl_mul_le (kws : List String) :
    ∀ (n n2 : ℕ) (f g : String → ℕ), n ≤ n2 → (∀ kw ∈ kws, f kw ≤ g kw) →
      kws.foldl (fun cost kw => cost * (f kw + 1)) n
        ≤ kws.foldl (fun cost kw => cost * (g kw + 1)) n2 := by
  induction kws with
  | nil => intro n n2 f g h _; exact h
  | cons k ks ih =>
    intro n n2 f g h hall
    rw [List.foldl_cons, List.foldl_cons]
    apply ih
    · exact Nat.mul_le_mul h (Nat.succ_le_succ (hall k (by simp)))
    · exact fun kw hkw => hall kw (by simp [hkw])

theorem cost_function_append_le (keywords : List String) (a b : String)
    (ca cab : ℕ) (hkw : ∀ kw ∈ keywords, alphaKeyword kw)
    (ha : cost_function a keywords = some ca)
    (hab : cost_function (a ++ b) keywords = some cab) : ca ≤ cab := by
  unfold cost_function at ha hab
  rcases hfa : find_cells a keywords with _ | ⟨cellsA⟩ <;> rw [hfa] at ha
  · exact absurd ha (by simp)
  rcases hfab : find_cells (a ++ b) keywords with _ | ⟨cellsAB⟩ <;> rw [hfab] at hab
  · exact absurd hab (by simp)
  simp only [Option.map_some'] at ha hab
  have hca := (Option.some.inj ha).symm
  have hcab := (Option.some.inj hab).symm
  subst hca
  subst hcab
  apply foldl_mul_le
  · have hsub := find_cells_append_subset keywords a b cellsA cellsAB hkw hfa hfab
    have hna := find_cells_nodup a keywords cellsA hfa
    have hnab := find_cells_nodup (a ++ b) keywords cellsAB hfab
    calc cellsA.length = cellsA.toFinset.card := (List.toFinset_card_of_nodup hna).symm
      _ ≤ cellsAB.toFinset.card := Finset.card_le_card (fun x hx => by
          rw [List.mem_toFinset] at hx ⊢
          exact hsub x hx)
      _ = cellsAB.length := List.toFinset_card_of_nodup hnab
  · intro kw _
    have hdata : (a ++ b).data = a.data ++ b.data := rfl
    rw [hdata]
    exact countOcc_append_le kw.data a.data b.data

/-- C7: for every list of (metacharacter-free) cost keywords and every
two non-empty proof strings whose costs (and the cost of their
concatenation) evaluate successfully, concatenating the proofs never
yields a cost below the cheaper of the two: appending a suffix preserves
every match and every keyword occurrence of the prefix, so the cost of
the concatenation is at least the cost of the first proof alone. -/
theorem c7_cost_monotone_concat (keywords : List String) (a b : String)
    (ca cb cab : ℕ) (hkw : ∀ kw ∈ keywords, alphaKeyword kw)
    (hane : a ≠ "") (hbne : b ≠ "")
    (ha : cost_function a keywords = some ca)
    (hb : cost_function b keywords = some cb)
    (hab : cost_function (a ++ b) keywords = some cab) :
    min ca cb ≤ cab :=
  le_trans (min_le_left ca cb)
    (cost_function_append_le keywords a b ca cab hkw ha hab)

/-- Witness for C7: a proof referencing cell (1,2) through the sameRow
rule (cost 2) concatenated with a proof referencing cell (3,4) through
gridValue (cost 1) costs 4, at least the minimum 1. -/
theorem c7_cost_monotone_concat_witness :
    cost_function "sameRow(1,2)" ["sameRow"] = some 2 ∧
    cost_function "gridValue(3,4)" ["sameRow"] = some 1 ∧
    cost_function ("sameRow(1,2)" ++ "gridValue(3,4)") ["sameRow"] = some 4 ∧
    min 2 1 ≤ 4 :=
  ⟨by decide, by decide, by decide,
    c7_cost_monotone_concat ["sameRow"] "sameRow(1,2)" "gridValue(3,4)" 2 1 4
      (by decide) (by decide) (by decide) (by decide) (by decide) (by decide)⟩

end SudokuProof
